import Mathlib

/-!
A shallow embedding of the layer library in spacy/_ml.py.

Numeric arrays are total functions over Fin-indexed shapes with entries in ℚ
(exact arithmetic standing in for the floating-point entries), batches of
variable-length sequences are lists of lists, and the fallible gradient
reassembly paths return Option.  The external thinc/numpy array operations
used by the file (numpy.tensordot at fixed axes, ops.flatten, ops.unflatten,
ops.xavier_uniform_init, ops.allocate) are embedded by their array semantics
at the concrete call sites; ops.flatten and ops.unflatten with edge padding
are modelled from the spec, as noted on their definitions.
-/

namespace SpacyMl

/- ### numpy.tensordot at the axes used by the two precomputable layers -/

/-- numpy.tensordot(X, W, axes=[[1],[2]]) for X : (B, I) and W : (F, O, I).
The contracted axes are removed and the free axes kept in order, giving a
(B, F, O) result. -/
def tensordot_bi_foi {B F O I : ℕ} (X : Fin B → Fin I → ℚ)
    (W : Fin F → Fin O → Fin I → ℚ) : Fin B → Fin F → Fin O → ℚ :=
  fun b f o => ∑ i, X b i * W f o i

/-- numpy.tensordot(dY, W, axes=[[1],[1]]) for dY : (B, O) and W : (F, O, I),
giving a (B, F, I) result. -/
def tensordot_bo_foi {B F O I : ℕ} (dY : Fin B → Fin O → ℚ)
    (W : Fin F → Fin O → Fin I → ℚ) : Fin B → Fin F → Fin I → ℚ :=
  fun b f i => ∑ o, dY b o * W f o i

/-- numpy.tensordot(dY, Xf, axes=[[0],[0]]) for dY : (B, O) and Xf : (B, F, I),
giving an (O, F, I) result. -/
def tensordot_bo_bfi {B F O I : ℕ} (dY : Fin B → Fin O → ℚ)
    (Xf : Fin B → Fin F → Fin I → ℚ) : Fin O → Fin F → Fin I → ℚ :=
  fun o f i => ∑ b, dY b o * Xf b f i

/-- numpy.tensordot(X, W, axes=[[1],[3]]) for X : (B, I) and W : (F, O, P, I),
giving a (B, F, O, P) result. -/
def tensordot_bi_fopi {B F O P I : ℕ} (X : Fin B → Fin I → ℚ)
    (W : Fin F → Fin O → Fin P → Fin I → ℚ) : Fin B → Fin F → Fin O → Fin P → ℚ :=
  fun b f o p => ∑ i, X b i * W f o p i

/-- numpy.tensordot(dYp, W, axes=[[1,2],[1,2]]) for dYp : (B, O, P) and
W : (F, O, P, I), contracting both the output and the piece axis and giving a
(B, F, I) result. -/
def tensordot_bop_fopi {B F O P I : ℕ} (dYp : Fin B → Fin O → Fin P → ℚ)
    (W : Fin F → Fin O → Fin P → Fin I → ℚ) : Fin B → Fin F → Fin I → ℚ :=
  fun b f i => ∑ o, ∑ p, dYp b o p * W f o p i

/-- numpy.tensordot(dYp, Xf, axes=[[0],[0]]) for dYp : (B, O, P) and
Xf : (B, F, I), giving an (O, P, F, I) result. -/
def tensordot_bop_bfi {B F O P I : ℕ} (dYp : Fin B → Fin O → Fin P → ℚ)
    (Xf : Fin B → Fin F → Fin I → ℚ) : Fin O → Fin P → Fin F → Fin I → ℚ :=
  fun o p f i => ∑ b, dYp b o p * Xf b f i

/- ### PrecomputableAffine (spacy/_ml.py lines 86-132) -/

/-- The mutable state of a PrecomputableAffine layer: the weight tensor W of
shape (nF, nO, nI), the bias b of shape (nO,), their gradient buffers d_W and
d_b, and the layer id used as the optimizer key (self.id, fixed at
construction and never reassigned). -/
structure AffineState (F O I : ℕ) where
  W : Fin F → Fin O → Fin I → ℚ
  b : Fin O → ℚ
  d_W : Fin F → Fin O → Fin I → ℚ
  d_b : Fin O → ℚ
  id : ℕ

/-- One recorded invocation of the optimizer callback
sgd(self._mem.weights, self._mem.gradient, key=self.id); the flat parameter
memory holds both the weights and the bias, so it is embedded as the pair of
the two buffers. -/
structure SgdCall (σ : Type) where
  weights : σ
  gradient : σ
  key : ℕ

/-- The result of running a precomputable layer's backward closure once: the
returned input gradient, the layer state after gradient accumulation, and the
trace of optimizer invocations made during the call. -/
structure BwdResult (ι σ ω : Type) where
  dX : ι
  state : σ
  calls : List (SgdCall ω)

/-- PrecomputableAffine.begin_update's forward computation:
Yf = tensordot(X, W, axes=[[1],[2]]); Yf += b (bias broadcast over the batch
and feature axes). -/
def PrecomputableAffine.begin_update {B F O I : ℕ} (s : AffineState F O I)
    (X : Fin B → Fin I → ℚ) : Fin B → Fin F → Fin O → ℚ :=
  fun b f o => tensordot_bi_foi X s.W b f o + s.b o

/-- The backward closure built by PrecomputableAffine.begin_update.  It
receives (dY, ids), re-selects rows of the captured forward input X by the
two-dimensional index array ids (Xf = X[ids], of shape (B2, nF, nI)), computes
dXf = tensordot(dY, W, axes=[[1],[1]]),
dW = tensordot(dY, Xf, axes=[[0],[0]]), accumulates
d_W += dW.transpose((1, 0, 2)) and d_b += dY.sum(axis=0), then invokes the
optimizer callback when one is supplied, and returns dXf. -/
def PrecomputableAffine.backward {B2 B F O I : ℕ} (s : AffineState F O I)
    (X : Fin B → Fin I → ℚ) (dY : Fin B2 → Fin O → ℚ)
    (ids : Fin B2 → Fin F → Fin B) (sgd : Bool) :
    BwdResult (Fin B2 → Fin F → Fin I → ℚ) (AffineState F O I)
      ((Fin F → Fin O → Fin I → ℚ) × (Fin O → ℚ)) :=
  let Xf : Fin B2 → Fin F → Fin I → ℚ := fun b f i => X (ids b f) i
  let dXf := tensordot_bo_foi dY s.W
  let dW := tensordot_bo_bfi dY Xf
  let s2 : AffineState F O I :=
    { s with
      d_W := fun f o i => s.d_W f o i + dW o f i
      d_b := fun o => s.d_b o + ∑ b, dY b o }
  { dX := dXf
    state := s2
    calls :=
      if sgd then [{ weights := (s2.W, s2.b), gradient := (s2.d_W, s2.d_b), key := s2.id }]
      else [] }

/- ### PrecomputableMaxouts (spacy/_ml.py lines 135-181) -/

/-- The mutable state of a PrecomputableMaxouts layer: the weight tensor W of
shape (nF, nO, nP, nI), the bias b of shape (nO, nP), their gradient buffers,
and the layer id used as the optimizer key. -/
structure MaxoutState (F O P I : ℕ) where
  W : Fin F → Fin O → Fin P → Fin I → ℚ
  b : Fin O → Fin P → ℚ
  d_W : Fin F → Fin O → Fin P → Fin I → ℚ
  d_b : Fin O → Fin P → ℚ
  id : ℕ

/-- PrecomputableMaxouts.begin_update's forward computation:
Yfp = tensordot(X, W, axes=[[1],[3]]); Yfp += b. -/
def PrecomputableMaxouts.begin_update {B F O P I : ℕ} (s : MaxoutState F O P I)
    (X : Fin B → Fin I → ℚ) : Fin B → Fin F → Fin O → Fin P → ℚ :=
  fun b f o p => tensordot_bi_fopi X s.W b f o p + s.b o p

/-- The backward closure built by PrecomputableMaxouts.begin_update:
Xf = X[ids]; dXf = tensordot(dYp, W, axes=[[1,2],[1,2]]);
dW = tensordot(dYp, Xf, axes=[[0],[0]]); d_W += dW.transpose((2, 0, 1, 3));
d_b += dYp.sum(axis=0); and the optimizer callback when supplied. -/
def PrecomputableMaxouts.backward {B2 B F O P I : ℕ} (s : MaxoutState F O P I)
    (X : Fin B → Fin I → ℚ) (dYp : Fin B2 → Fin O → Fin P → ℚ)
    (ids : Fin B2 → Fin F → Fin B) (sgd : Bool) :
    BwdResult (Fin B2 → Fin F → Fin I → ℚ) (MaxoutState F O P I)
      ((Fin F → Fin O → Fin P → Fin I → ℚ) × (Fin O → Fin P → ℚ)) :=
  let Xf : Fin B2 → Fin F → Fin I → ℚ := fun b f i => X (ids b f) i
  let dXf := tensordot_bop_fopi dYp s.W
  let dW := tensordot_bop_bfi dYp Xf
  let s2 : MaxoutState F O P I :=
    { s with
      d_W := fun f o p i => s.d_W f o p i + dW o p f i
      d_b := fun o p => s.d_b o p + ∑ b, dYp b o p }
  { dX := dXf
    state := s2
    calls :=
      if sgd then [{ weights := (s2.W, s2.b), gradient := (s2.d_W, s2.d_b), key := s2.id }]
      else [] }

/- ### Weight initialization (spacy/_ml.py lines 78-83 and 141-143) -/

/-- spacy _ml._init_for_precomputed.  The external ops.xavier_uniform_init is
taken as a parameter acting on the weight buffer; since numpy reshape
preserves the row-major flat data, the reshape pair around the call is the
identity on the buffer's contents and the pair W.reshape / W[:] = ... is
embedded as applying the initializer to the buffer itself. -/
def _init_for_precomputed {n : ℕ} (xavier_uniform_init : (Fin n → ℚ) → Fin n → ℚ)
    (W : Fin n → ℚ) : Fin n → ℚ :=
  if (∑ j, W j ^ 2) ≠ 0 then W else xavier_uniform_init W

/-- The weight initializer attached to PrecomputableMaxouts' W Synapses
descriptor: fun W ops => ops.xavier_uniform_init W, applied unconditionally,
with no sum-of-squares guard. -/
def maxout_W_init {n : ℕ} (xavier_uniform_init : (Fin n → ℚ) → Fin n → ℚ)
    (W : Fin n → ℚ) : Fin n → ℚ :=
  xavier_uniform_init W

/- ### Flatten / unflatten (spacy/_ml.py lines 30-39 and 511-520) -/

/-- Modelled from the spec: the external thinc ops.flatten concatenates all
sequences into one buffer in original order and, when pad > 0, inserts pad
all-zero rows at the start and at the end of the entire flattened buffer (not
between each sequence). -/
def opsFlatten {α : Type} [Zero α] (seqs : List (List α)) (pad : ℕ) : List α :=
  List.replicate pad 0 ++ seqs.flatten ++ List.replicate pad 0

/-- Split a buffer into consecutive chunks of the given lengths, in order. -/
def splitByLengths {α : Type} : List α → List ℕ → List (List α)
  | _, [] => []
  | X, l :: ls => X.take l :: splitByLengths (X.drop l) ls

/-- Modelled from the spec: the external thinc ops.unflatten drops the leading
edge padding and splits the rest of the buffer back into per-sequence chunks
honoring the recorded lengths, preserving original ordering (the trailing edge
padding lies after all recorded lengths are consumed). -/
def opsUnflatten {α : Type} (X : List α) (lengths : List ℕ) (pad : ℕ) : List (List α) :=
  splitByLengths (X.drop pad) lengths

/-- spacy _ml._flatten_add_lengths: records the per-sequence lengths, returns
(ops.flatten(seqs, pad=pad), lengths) and a finish_update closure that
unflattens an incoming gradient buffer with the captured lengths and the same
pad. -/
def _flatten_add_lengths {α : Type} [Zero α] (seqs : List (List α)) (pad : ℕ) :
    (List α × List ℕ) × (List α → List (List α)) :=
  let lengths := seqs.map List.length
  ((opsFlatten seqs pad, lengths), fun d_X => opsUnflatten d_X lengths pad)

/-- spacy _ml.flatten (line 511): the layerized flatten with pad = 0. -/
def flatten {α : Type} [Zero α] (seqs : List (List α)) :
    List α × (List α → List (List α)) :=
  let lengths := seqs.map List.length
  (opsFlatten seqs 0, fun d_X => opsUnflatten d_X lengths 0)

/- ### Rebatching (spacy/_ml.py lines 268-302) -/

/-- spacy _ml._divide_array: chunks X into consecutive slices
X[index : index + size] while index < len(X).  The source's while loop does
not terminate when size = 0; callers use size ≥ 1, and the embedding returns
[] in that unreachable case to stay total. -/
def _divide_array {α : Type} (X : List α) (size : ℕ) : List (List α) :=
  if h : X.isEmpty then []
  else if h0 : size = 0 then []
  else X.take size :: _divide_array (X.drop size) size
termination_by X.length
decreasing_by
  simp only [List.isEmpty_iff] at h
  have hpos : 0 < X.length := List.length_pos.mpr h
  simp only [List.length_drop]
  omega

/-- ops.flatten applied to the list of per-chunk gradients together with the
try/except TypeError fallback in rebatch's backward: an absent (None) chunk
gradient makes the whole result None instead of an exception or a partial
buffer. -/
def flattenMaybe {δ : Type} : List (Option (List δ)) → Option (List δ)
  | [] => some []
  | none :: _ => none
  | some d :: rest =>
    match flattenMaybe rest with
    | none => none
    | some tail => some (d ++ tail)

/-- spacy _ml.rebatch's forward closure.  A wrapped layer is a function from
a batch to (output, backward closure); chunk gradients are Option-valued so
that a layer with no trainable input path can report an absent gradient.  If
len(X) < size the call is delegated directly to the wrapped layer; otherwise
X is divided into chunks, the layer runs per chunk, the outputs are
concatenated, and the backward closure divides the incoming gradient with the
same chunk size, replays each chunk's backward and reassembles with
flattenMaybe. -/
def rebatch {α β γ δ : Type} (size : ℕ)
    (layer : List α → List β × (List γ → Option (List δ)))
    (X : List α) : List β × (List γ → Option (List δ)) :=
  if X.length < size then layer X
  else
    let parts := _divide_array X size
    let results := parts.map fun p => (layer p).1
    let bp_results := parts.map fun p => (layer p).2
    let y := results.flatten
    (y, fun dy =>
      flattenMaybe (List.zipWith (fun bp d => bp d) bp_results (_divide_array dy size)))

/- ### Repeater (spacy/_ml.py lines 240-259) -/

/-- The forward loop of reapply: apply the same layer n times, each
application's output becoming the next application's input, collecting the
backward closures in application order. -/
def reapplyLoop {β γ : Type} (layer : β → β × (γ → γ)) : ℕ → β → β × List (γ → γ)
  | 0, X => (X, [])
  | n + 1, X =>
    let r := layer X
    let rest := reapplyLoop layer n r.1
    (rest.1, r.2 :: rest.2)

/-- The backward loop of reapply: dX starts as None; each backward closure is
replayed on the threaded gradient dY, and its result is both threaded onward
and accumulated into dX by elementwise addition. -/
def reapplyBwdLoop {γ : Type} [Add γ] : List (γ → γ) → γ → Option γ → Option γ
  | [], _, dX => dX
  | bp :: rest, dY, dX =>
    match dX with
    | none => reapplyBwdLoop rest (bp dY) (some (bp dY))
    | some v => reapplyBwdLoop rest (bp dY) (some (v + bp dY))

/-- spacy _ml.reapply: one underlying layer applied n_times in sequence; the
backward closure iterates the captured backward closures in reversed order.
(For n_times = 0 the source would raise NameError on the unbound Y; the layer
is only used with n_times ≥ 1.) -/
def reapply {β γ : Type} [Add γ] (layer : β → β × (γ → γ)) (n_times : ℕ) (X : β) :
    β × (γ → Option γ) :=
  let r := reapplyLoop layer n_times X
  (r.1, fun dY => reapplyBwdLoop r.2.reverse dY none)

/-- The gradients produced step by step when a list of backward closures is
replayed in order, each closure's output threaded into the next closure. -/
def threadParts {γ : Type} : List (γ → γ) → γ → List γ
  | [], _ => []
  | bp :: rest, dY => bp dY :: threadParts rest (bp dY)

/- ### get_col (spacy/_ml.py lines 305-324) -/

/-- ops.allocate(X.shape): a fresh all-zero buffer. -/
def ops_allocate (R C : ℕ) : Fin R → Fin C → ℚ :=
  fun _ _ => 0

/-- spacy _ml.get_col's forward: ascontiguousarray(X[:, idx]), one value per
row.  An out-of-range idx raises IndexError in the source; the embedding
returns 0 there and the contract is stated only for idx < C. -/
def get_col_forward (idx : ℕ) {R C : ℕ} (X : Fin R → Fin C → ℚ) : Fin R → ℚ :=
  fun r => if h : idx < C then X r ⟨idx, h⟩ else 0

/-- spacy _ml.get_col's backward: dX = ops.allocate(X.shape); dX[:, idx] += y;
return dX. -/
def get_col_backward (idx : ℕ) (R C : ℕ) (y : Fin R → ℚ) : Fin R → Fin C → ℚ :=
  fun r c => if (c : ℕ) = idx then ops_allocate R C r c + y r else ops_allocate R C r c

/- ### Concrete instances used to evaluate the contracts on closed inputs -/

/-- A PrecomputableAffine state at the spec's concrete scenario dimensions
nF = 4, nO = 6, nI = 3, with an all-zero weight buffer. -/
def exampleAffineState : AffineState 4 6 3 where
  W := fun _ _ _ => 0
  b := fun o => ((o : ℕ) : ℚ) + 1
  d_W := fun _ _ _ => 0
  d_b := fun _ => 0
  id := 7

/-- A concrete input batch of shape (2, 3). -/
def exampleX : Fin 2 → Fin 3 → ℚ :=
  fun b i => ((b : ℕ) : ℚ) * 10 + ((i : ℕ) : ℚ)

/-- A concrete output gradient of shape (2, 6). -/
def exampledY : Fin 2 → Fin 6 → ℚ :=
  fun b o => ((b : ℕ) : ℚ) + ((o : ℕ) : ℚ)

/-- A concrete ids index array of shape (2, 4). -/
def exampleIds : Fin 2 → Fin 4 → Fin 2 :=
  fun b _ => b

/-- A PrecomputableMaxouts state at dimensions nF = nO = nP = nI = 1. -/
def exampleMaxoutState : MaxoutState 1 1 1 1 where
  W := fun _ _ _ _ => 1
  b := fun _ _ => 0
  d_W := fun _ _ _ _ => 0
  d_b := fun _ _ => 0
  id := 3

/-- A concrete maxout input batch of shape (1, 1). -/
def exampleXm : Fin 1 → Fin 1 → ℚ :=
  fun _ _ => 1

/-- A concrete maxout output gradient of shape (1, 1, 1). -/
def exampledYp : Fin 1 → Fin 1 → Fin 1 → ℚ :=
  fun _ _ _ => 1

/-- A concrete maxout ids index array of shape (1, 1). -/
def exampleIdsm : Fin 1 → Fin 1 → Fin 1 :=
  fun _ _ => 0

/- ### Helper lemmas -/

/-- Splitting a concatenation by the lengths of its own segments recovers the
segments, whatever trails the concatenation. -/
theorem splitByLengths_flatten_append {α : Type} (L : List (List α)) (rest : List α) :
    splitByLengths (L.flatten ++ rest) (L.map List.length) = L := by
  induction L generalizing rest with
  | nil => rfl
  | cons s L ih =>
    simp only [List.flatten_cons, List.map_cons, splitByLengths, List.append_assoc]
    rw [List.take_left, List.drop_left, ih rest]

/-- Unflattening the flattened buffer with the recorded lengths and the same
edge padding recovers the original sequences. -/
theorem opsUnflatten_opsFlatten {α : Type} [Zero α] (seqs : List (List α)) (pad : ℕ) :
    opsUnflatten (opsFlatten seqs pad) (seqs.map List.length) pad = seqs := by
  unfold opsUnflatten opsFlatten
  rw [List.append_assoc, List.drop_left' (List.length_replicate pad (0 : α))]
  exact splitByLengths_flatten_append seqs (List.replicate pad 0)

/- ### Claim theorems -/

/-- Claim C1: the PrecomputableAffine forward pass returns
Y[b,f,o] = sum_i X[b,i] * W[f,o,i] + bias[o]; in particular, when the weight
buffer is all zero the output equals the bias broadcast across the batch and
feature axes for any input X. -/
theorem affine_forward_contract {B F O I : ℕ} (s : AffineState F O I)
    (X : Fin B → Fin I → ℚ) :
    (∀ b f o, PrecomputableAffine.begin_update s X b f o
        = (∑ i, X b i * s.W f o i) + s.b o) ∧
    ((∀ f o i, s.W f o i = 0) →
      ∀ b f o, PrecomputableAffine.begin_update s X b f o = s.b o) := by
  constructor
  · intro b f o
    rfl
  · intro hW b f o
    simp [PrecomputableAffine.begin_update, tensordot_bi_foi, hW]

/-- Claim C1, evaluated: at the spec's scenario dimensions nF = 4, nO = 6,
nI = 3 with an all-zero weight buffer, the forward output at a concrete entry
equals the bias there. -/
theorem affine_forward_contract_witness :
    PrecomputableAffine.begin_update exampleAffineState exampleX 0 0 0
      = exampleAffineState.b 0 :=
  (affine_forward_contract exampleAffineState exampleX).2 (fun _ _ _ => rfl) 0 0 0

/-- Claim C2: the PrecomputableAffine backward pass returns
input_gradient[b,f,i] = sum_o dY[b,o] * W[f,o,i], accumulates
weight_gradient[f,o,i] += sum_b dY[b,o] * X[ids][b,f,i] into the shared
weight-gradient buffer (adding to the previous contents, never overwriting),
and accumulates bias_gradient[o] += sum_b dY[b,o]. -/
theorem affine_backward_gradients {B2 B F O I : ℕ} (s : AffineState F O I)
    (X : Fin B → Fin I → ℚ) (dY : Fin B2 → Fin O → ℚ)
    (ids : Fin B2 → Fin F → Fin B) (sgd : Bool) :
    (∀ b f i, (PrecomputableAffine.backward s X dY ids sgd).dX b f i
        = ∑ o, dY b o * s.W f o i) ∧
    (∀ f o i, (PrecomputableAffine.backward s X dY ids sgd).state.d_W f o i
        = s.d_W f o i + ∑ b, dY b o * X (ids b f) i) ∧
    (∀ o, (PrecomputableAffine.backward s X dY ids sgd).state.d_b o
        = s.d_b o + ∑ b, dY b o) :=
  ⟨fun _ _ _ => rfl, fun _ _ _ => rfl, fun _ => rfl⟩

/-- Claim C3: for every batch of variable-length sequences and every pad, the
backward closure captured by the flatten layers is a left inverse of the
forward flattening: unflattening the flattened buffer with the captured
lengths and the same pad reproduces the batch exactly, and likewise for the
pad = 0 layerized flatten. -/
theorem flatten_unflatten_round_trip {α : Type} [Zero α]
    (seqs : List (List α)) (pad : ℕ) :
    ((_flatten_add_lengths seqs pad).2 ((_flatten_add_lengths seqs pad).1.1) = seqs) ∧
    ((flatten seqs).2 ((flatten seqs).1) = seqs) :=
  ⟨opsUnflatten_opsFlatten seqs pad, opsUnflatten_opsFlatten seqs 0⟩

/-- Claim C4: the flattened buffer consists of exactly pad zero rows, then all
sequences concatenated with no padding between consecutive sequences, then pad
zero rows; its total length is the total item count plus 2 * pad. -/
theorem flatten_padding_layout {α : Type} [Zero α] (seqs : List (List α)) (pad : ℕ) :
    (opsFlatten seqs pad).length = (seqs.map List.length).sum + 2 * pad ∧
    (opsFlatten seqs pad).take pad = List.replicate pad (0 : α) ∧
    ((opsFlatten seqs pad).drop pad).take (seqs.map List.length).sum = seqs.flatten ∧
    (opsFlatten seqs pad).drop (pad + (seqs.map List.length).sum)
      = List.replicate pad (0 : α) := by
  refine ⟨?_, ?_, ?_, ?_⟩
  · simp [opsFlatten, List.length_flatten]
    omega
  · unfold opsFlatten
    rw [List.append_assoc, List.take_left' (List.length_replicate pad (0 : α))]
  · unfold opsFlatten
    rw [List.append_assoc, List.drop_left' (List.length_replicate pad (0 : α))]
    rw [List.take_left' (List.length_flatten seqs)]
  · unfold opsFlatten
    refine List.drop_left' ?_
    simp [List.length_flatten]

/-- Claim C8 counterexample: the initializer attached to PrecomputableMaxouts'
weight buffer has no sum-of-squares guard; on a buffer whose sum of squares is
nonzero it still invokes the external xavier_uniform_init and the buffer is
changed (here a one-entry buffer holding 2, with an initializer writing 5). -/
theorem maxout_init_guard_counterexample :
    (∑ j : Fin 1, ((fun _ : Fin 1 => (2 : ℚ)) j) ^ 2) ≠ 0 ∧
    maxout_W_init (fun _ _ => (5 : ℚ)) (fun _ : Fin 1 => (2 : ℚ)) 0 = 5 ∧
    (5 : ℚ) ≠ 2 := by
  refine ⟨by simp, rfl, by norm_num⟩

/-- Claim C8 (amended): the sum-of-squares re-initialization guard belongs to
the affine variant's initializer _init_for_precomputed only: on a weight
buffer with nonzero sum of squares it is a no-op that leaves the buffer
unchanged, so repeated initialization is idempotent there, and it applies the
Xavier-uniform initializer exactly when the sum of squares is zero.  The
maxout variant's initializer applies xavier_uniform_init unconditionally. -/
theorem affine_init_guard {n : ℕ}
    (xavier_uniform_init : (Fin n → ℚ) → Fin n → ℚ) (W : Fin n → ℚ) :
    ((∑ j, W j ^ 2) ≠ 0 →
      _init_for_precomputed xavier_uniform_init W = W ∧
      _init_for_precomputed xavier_uniform_init
        (_init_for_precomputed xavier_uniform_init W) = W) ∧
    ((∑ j, W j ^ 2) = 0 →
      _init_for_precomputed xavier_uniform_init W = xavier_uniform_init W) ∧
    maxout_W_init xavier_uniform_init W = xavier_uniform_init W := by
  refine ⟨fun h => ?_, fun h => ?_, rfl⟩
  · have h1 : _init_for_precomputed xavier_uniform_init W = W := by
      simp [_init_for_precomputed, h]
    exact ⟨h1, by rw [h1, h1]⟩
  · simp [_init_for_precomputed, h]

/-- Claim C8 (amended), evaluated: on a concrete nonzero one-entry buffer the
affine initializer leaves the buffer unchanged. -/
theorem affine_init_guard_witness :
    _init_for_precomputed (fun _ _ => (5 : ℚ)) (fun _ : Fin 1 => (2 : ℚ))
      = (fun _ : Fin 1 => (2 : ℚ)) :=
  ((affine_init_guard (fun _ _ => (5 : ℚ)) (fun _ : Fin 1 => (2 : ℚ))).1 (by simp)).1

/-- Claim C9: in both precomputable layers' backward passes the optimizer
callback is invoked exactly when one is supplied, and then exactly once,
receiving the layer's weight buffers (left unchanged by the backward pass),
the accumulated gradient buffers, and the layer's id as key; the id is never
reassigned, so the key is the same value on every backward call of the
instance. -/
theorem optimizer_callback_invocation {B2 B F O I B2m Bm Fm Om Pm Im : ℕ}
    (s : AffineState F O I) (X : Fin B → Fin I → ℚ) (dY : Fin B2 → Fin O → ℚ)
    (ids : Fin B2 → Fin F → Fin B)
    (m : MaxoutState Fm Om Pm Im) (Xm : Fin Bm → Fin Im → ℚ)
    (dYp : Fin B2m → Fin Om → Fin Pm → ℚ) (idsm : Fin B2m → Fin Fm → Fin Bm)
    (sgd : Bool) :
    ((PrecomputableAffine.backward s X dY ids sgd).calls.length
        = if sgd then 1 else 0) ∧
    (∀ c ∈ (PrecomputableAffine.backward s X dY ids sgd).calls,
        c.key = s.id ∧ c.weights = (s.W, s.b) ∧
        c.gradient = ((PrecomputableAffine.backward s X dY ids sgd).state.d_W,
                      (PrecomputableAffine.backward s X dY ids sgd).state.d_b)) ∧
    ((PrecomputableAffine.backward s X dY ids sgd).state.id = s.id) ∧
    ((PrecomputableMaxouts.backward m Xm dYp idsm sgd).calls.length
        = if sgd then 1 else 0) ∧
    (∀ c ∈ (PrecomputableMaxouts.backward m Xm dYp idsm sgd).calls,
        c.key = m.id ∧ c.weights = (m.W, m.b) ∧
        c.gradient = ((PrecomputableMaxouts.backward m Xm dYp idsm sgd).state.d_W,
                      (PrecomputableMaxouts.backward m Xm dYp idsm sgd).state.d_b)) ∧
    ((PrecomputableMaxouts.backward m Xm dYp idsm sgd).state.id = m.id) := by
  cases sgd <;>
    simp [PrecomputableAffine.backward, PrecomputableMaxouts.backward]

/-- Claim C9, evaluated: with a callback supplied the affine backward records
exactly one optimizer invocation and it carries the layer id 7 as key; with no
callback the maxout backward records none. -/
theorem optimizer_callback_invocation_witness :
    (PrecomputableAffine.backward exampleAffineState exampleX exampledY
        exampleIds true).calls.length = 1 ∧
    ((PrecomputableAffine.backward exampleAffineState exampleX exampledY
        exampleIds true).calls.map SgdCall.key) = [7] ∧
    (PrecomputableMaxouts.backward exampleMaxoutState exampleXm exampledYp
        exampleIdsm false).calls.length = 0 := by
  obtain ⟨h1, h2, -, -, -, -⟩ :=
    optimizer_callback_invocation exampleAffineState exampleX exampledY exampleIds
      exampleMaxoutState exampleXm exampledYp exampleIdsm true
  obtain ⟨-, -, -, h4, -, -⟩ :=
    optimizer_callback_invocation exampleAffineState exampleX exampledY exampleIds
      exampleMaxoutState exampleXm exampledYp exampleIdsm false
  refine ⟨by simpa using h1, ?_, by simpa using h4⟩
  cases hc : (PrecomputableAffine.backward exampleAffineState exampleX exampledY
      exampleIds true).calls with
  | nil => rw [hc] at h1; simp at h1
  | cons c rest =>
    rw [hc] at h1 h2
    simp only [List.length_cons, if_true] at h1
    have hrest : rest = [] := by
      have := h1
      simpa [List.length_eq_zero] using this
    have hkey := (h2 c (by simp)).1
    simp [hrest, hkey, exampleAffineState]

/-- Claim C10: for a 2-D input and a column index idx within bounds, get_col's
forward returns exactly column idx (one value per row), and its backward maps
a per-row gradient vector to an array of the input's shape that equals the
vector in column idx and is zero in every other column. -/
theorem get_col_contract {R C : ℕ} (idx : ℕ) (h : idx < C)
    (X : Fin R → Fin C → ℚ) (y : Fin R → ℚ) :
    (∀ r, get_col_forward idx X r = X r ⟨idx, h⟩) ∧
    (∀ (r : Fin R) (c : Fin C),
        ((c : ℕ) = idx → get_col_backward idx R C y r c = y r) ∧
        ((c : ℕ) ≠ idx → get_col_backward idx R C y r c = 0)) := by
  refine ⟨fun r => ?_, fun r c => ⟨fun hc => ?_, fun hc => ?_⟩⟩
  · simp [get_col_forward, h]
  · simp [get_col_backward, hc, ops_allocate]
  · simp [get_col_backward, hc, ops_allocate]

/-- Claim C10, evaluated: on a concrete (1, 2) array whose entries are the
column indices, column 1 is selected, and the backward of the gradient vector
with entry 3 places 3 in column 1 and 0 in column 0. -/
theorem get_col_contract_witness :
    get_col_forward 1 (fun _ : Fin 1 => fun c : Fin 2 => ((c : ℕ) : ℚ)) 0 = 1 ∧
    get_col_backward 1 1 2 (fun _ : Fin 1 => (3 : ℚ)) 0 1 = 3 ∧
    get_col_backward 1 1 2 (fun _ : Fin 1 => (3 : ℚ)) 0 0 = 0 := by
  obtain ⟨hf, hb⟩ :=
    get_col_contract 1 (by norm_num)
      (fun _ : Fin 1 => fun c : Fin 2 => ((c : ℕ) : ℚ)) (fun _ : Fin 1 => (3 : ℚ))
  refine ⟨by simpa using hf 0, ?_, ?_⟩
  · exact (hb 0 1).1 rfl
  · exact (hb 0 0).2 (by norm_num)

/- ### Lemmas about _divide_array, flattenMaybe and reapply -/

theorem _divide_array_nil {α : Type} (size : ℕ) :
    _divide_array ([] : List α) size = [] := by
  rw [_divide_array]
  rfl

theorem _divide_array_cons {α : Type} (X : List α) (size : ℕ)
    (hX : X ≠ []) (hs : size ≠ 0) :
    _divide_array X size = X.take size :: _divide_array (X.drop size) size := by
  rw [_divide_array]
  simp [List.isEmpty_iff, hX, hs]

theorem _divide_array_flatten_aux {α : Type} (size : ℕ) (hs : size ≠ 0) :
    ∀ (n : ℕ) (X : List α), X.length ≤ n → (_divide_array X size).flatten = X := by
  intro n
  induction n with
  | zero =>
    intro X hX
    have hXe : X = [] := List.length_eq_zero.mp (Nat.le_zero.mp hX)
    rw [hXe, _divide_array_nil]
    rfl
  | succ n ih =>
    intro X hX
    by_cases hXe : X = []
    · rw [hXe, _divide_array_nil]; rfl
    · rw [_divide_array_cons X size hXe hs, List.flatten_cons]
      rw [ih (X.drop size) ?_]
      · exact List.take_append_drop size X
      · have h1 : 0 < X.length := List.length_pos.mpr hXe
        simp only [List.length_drop]
        omega

/-- The chunks of _divide_array concatenate back to the input, in order. -/
theorem _divide_array_flatten {α : Type} (size : ℕ) (hs : size ≠ 0) (X : List α) :
    (_divide_array X size).flatten = X :=
  _divide_array_flatten_aux size hs X.length X le_rfl

theorem _divide_array_mem_aux {α : Type} (size : ℕ) (hs : size ≠ 0) :
    ∀ (n : ℕ) (X : List α), X.length ≤ n →
      ∀ p ∈ _divide_array X size, p ≠ [] ∧ p.length ≤ size := by
  intro n
  induction n with
  | zero =>
    intro X hX p hp
    have hXe : X = [] := List.length_eq_zero.mp (Nat.le_zero.mp hX)
    rw [hXe, _divide_array_nil] at hp
    simp at hp
  | succ n ih =>
    intro X hX p hp
    by_cases hXe : X = []
    · rw [hXe, _divide_array_nil] at hp; simp at hp
    · rw [_divide_array_cons X size hXe hs] at hp
      rcases List.mem_cons.mp hp with h1 | h2
      · have hlen : 0 < X.length := List.length_pos.mpr hXe
        subst h1
        constructor
        · rw [← List.length_pos, List.length_take]
          omega
        · rw [List.length_take]
          omega
      · refine ih (X.drop size) ?_ p h2
        simp only [List.length_drop]
        omega

/-- Every chunk produced by _divide_array is nonempty and holds at most size
items. -/
theorem _divide_array_mem {α : Type} (size : ℕ) (hs : size ≠ 0) (X : List α) :
    ∀ p ∈ _divide_array X size, p ≠ [] ∧ p.length ≤ size :=
  _divide_array_mem_aux size hs X.length X le_rfl

theorem _divide_array_dropLast_aux {α : Type} (size : ℕ) (hs : size ≠ 0) :
    ∀ (n : ℕ) (X : List α), X.length ≤ n →
      ∀ p ∈ (_divide_array X size).dropLast, p.length = size := by
  intro n
  induction n with
  | zero =>
    intro X hX p hp
    have hXe : X = [] := List.length_eq_zero.mp (Nat.le_zero.mp hX)
    rw [hXe, _divide_array_nil] at hp
    simp at hp
  | succ n ih =>
    intro X hX p hp
    by_cases hXe : X = []
    · rw [hXe, _divide_array_nil] at hp; simp at hp
    · rw [_divide_array_cons X size hXe hs] at hp
      by_cases hrest : _divide_array (X.drop size) size = []
      · rw [hrest] at hp; simp at hp
      · rw [List.dropLast_cons_of_ne_nil hrest] at hp
        rcases List.mem_cons.mp hp with h1 | h2
        · have hdrop : X.drop size ≠ [] := by
            intro hd
            rw [hd, _divide_array_nil] at hrest
            exact hrest rfl
          have hlt : size < X.length := by
            have h1' : 0 < (X.drop size).length := List.length_pos.mpr hdrop
            simp only [List.length_drop] at h1'
            omega
          rw [h1, List.length_take]
          omega
        · refine ih (X.drop size) ?_ p h2
          have h1 : 0 < X.length := List.length_pos.mpr hXe
          simp only [List.length_drop]
          omega

/-- Every chunk before the last one has length exactly size. -/
theorem _divide_array_dropLast {α : Type} (size : ℕ) (hs : size ≠ 0) (X : List α) :
    ∀ p ∈ (_divide_array X size).dropLast, p.length = size :=
  _divide_array_dropLast_aux size hs X.length X le_rfl

/-- Unfolding of rebatch on a batch at least as long as the chunk size. -/
theorem rebatch_else {α β γ δ : Type} (size : ℕ)
    (layer : List α → List β × (List γ → Option (List δ))) (X : List α)
    (hge : ¬ X.length < size) :
    rebatch size layer X
      = (((_divide_array X size).map fun p => (layer p).1).flatten,
         fun dy => flattenMaybe (List.zipWith (fun bp d => bp d)
             ((_divide_array X size).map fun p => (layer p).2)
             (_divide_array dy size))) := by
  unfold rebatch
  rw [if_neg hge]

/-- An absent chunk gradient makes the reassembled gradient absent. -/
theorem flattenMaybe_none {δ : Type} :
    ∀ l : List (Option (List δ)), none ∈ l → flattenMaybe l = none := by
  intro l
  induction l with
  | nil => intro h; simp at h
  | cons a rest ih =>
    intro h
    match a with
    | none => rfl
    | some d =>
      have hmem : none ∈ rest := by
        rcases List.mem_cons.mp h with h1 | h2
        · exact absurd h1 (by simp)
        · exact h2
      simp [flattenMaybe, ih hmem]

theorem reapplyLoop_fst {β γ : Type} (layer : β → β × (γ → γ)) :
    ∀ (n : ℕ) (X : β), (reapplyLoop layer n X).1 = (fun v => (layer v).1)^[n] X := by
  intro n
  induction n with
  | zero => intro X; rfl
  | succ n ih =>
    intro X
    rw [Function.iterate_succ_apply]
    exact ih (layer X).1

theorem reapplyLoop_snd_length {β γ : Type} (layer : β → β × (γ → γ)) :
    ∀ (n : ℕ) (X : β), (reapplyLoop layer n X).2.length = n := by
  intro n
  induction n with
  | zero => intro X; rfl
  | succ n ih => intro X; simp [reapplyLoop, ih]

theorem reapplyBwdLoop_some {γ : Type} [AddMonoid γ] :
    ∀ (bps : List (γ → γ)) (dY acc : γ),
      reapplyBwdLoop bps dY (some acc) = some (acc + (threadParts bps dY).sum) := by
  intro bps
  induction bps with
  | nil => intro dY acc; simp [reapplyBwdLoop, threadParts]
  | cons bp rest ih =>
    intro dY acc
    simp [reapplyBwdLoop, threadParts, ih, add_assoc]

theorem reapplyBwdLoop_from_none {γ : Type} [AddMonoid γ] (bp : γ → γ)
    (rest : List (γ → γ)) (dY : γ) :
    reapplyBwdLoop (bp :: rest) dY none
      = some ((threadParts (bp :: rest) dY).sum) := by
  simp [reapplyBwdLoop, threadParts, reapplyBwdLoop_some]

/-- Claim C5: with chunk size at least 1, the rebatcher delegates directly to
the wrapped layer when the batch is shorter than the chunk size; otherwise it
partitions the batch into contiguous chunks of at most that size (all chunks
of exactly that size except possibly a shorter last chunk, concatenating back
to the batch), runs the wrapped layer per chunk and concatenates the chunk
outputs in order; and whenever any chunk's backward produces an absent
gradient during reassembly, the backward closure returns an absent gradient
for the whole batch rather than a partial result. -/
theorem rebatch_contract {α β γ δ : Type} (size : ℕ) (hs : 1 ≤ size)
    (layer : List α → List β × (List γ → Option (List δ))) (X : List α) :
    (X.length < size → rebatch size layer X = layer X) ∧
    (¬ X.length < size →
      ((_divide_array X size).flatten = X ∧
       (∀ p ∈ _divide_array X size, p ≠ [] ∧ p.length ≤ size) ∧
       (∀ p ∈ (_divide_array X size).dropLast, p.length = size) ∧
       (rebatch size layer X).1
         = ((_divide_array X size).map fun p => (layer p).1).flatten ∧
       (∀ dy : List γ,
          none ∈ List.zipWith (fun bp d => bp d)
              ((_divide_array X size).map fun p => (layer p).2)
              (_divide_array dy size) →
          (rebatch size layer X).2 dy = none))) := by
  have hs0 : size ≠ 0 := by omega
  constructor
  · intro hlt
    simp [rebatch, hlt]
  · intro hge
    refine ⟨_divide_array_flatten size hs0 X,
            _divide_array_mem size hs0 X,
            _divide_array_dropLast size hs0 X, ?_, ?_⟩
    · rw [rebatch_else size layer X hge]
    · intro dy hnone
      rw [rebatch_else size layer X hge]
      exact flattenMaybe_none _ hnone

/-- Claim C5, evaluated: chunking the batch [1, 2, 3] with size 2 over a layer
whose backward reports no gradient makes the rebatcher's backward report an
absent gradient for the whole batch. -/
theorem rebatch_contract_witness :
    (rebatch 2 (fun l : List ℚ => (l.map (fun v => v + 1),
        fun _ : List ℚ => (none : Option (List ℚ)))) [1, 2, 3]).2 [9] = none := by
  have h := ((rebatch_contract 2 (by norm_num)
      (fun l : List ℚ => (l.map (fun v => v + 1),
        fun _ : List ℚ => (none : Option (List ℚ)))) [1, 2, 3]).2 (by norm_num)).2.2.2.2
  exact h [9] (by simp [_divide_array])

/-- Claim C7: for a wrapped layer whose forward maps each batch item
independently through one fixed function, the rebatcher's forward output
equals the wrapped layer's direct forward output on the whole batch, for every
chunk size of at least 1. -/
theorem rebatch_chunk_invariance {α β γ δ : Type} (f : α → β)
    (layer : List α → List β × (List γ → Option (List δ)))
    (hlayer : ∀ Y, (layer Y).1 = Y.map f)
    (size : ℕ) (hs : 1 ≤ size) (X : List α) :
    (rebatch size layer X).1 = (layer X).1 := by
  have hs0 : size ≠ 0 := by omega
  by_cases hlt : X.length < size
  · simp [rebatch, hlt]
  · have h1 : ((_divide_array X size).map fun p => (layer p).1)
        = (_divide_array X size).map fun p => p.map f := by
      simp [hlayer]
    rw [rebatch_else size layer X hlt]
    show ((_divide_array X size).map fun p => (layer p).1).flatten = (layer X).1
    rw [hlayer X, h1, ← List.map_flatten, _divide_array_flatten size hs0 X]

/-- Claim C7, evaluated: doubling each item chunk-by-chunk with size 2 equals
doubling the whole batch [1, 2, 3] at once. -/
theorem rebatch_chunk_invariance_witness :
    (rebatch 2 (fun l : List ℚ => (l.map (fun v => v * 2),
        fun _ : List ℚ => (none : Option (List ℚ)))) [1, 2, 3]).1
      = ((fun l : List ℚ => (l.map (fun v => v * 2),
        fun _ : List ℚ => (none : Option (List ℚ)))) [1, 2, 3]).1 :=
  rebatch_chunk_invariance (fun v => v * 2) _ (fun _ => rfl) 2 (by norm_num) [1, 2, 3]

/-- Claim C6: reapply applies the one underlying layer n_times in sequence,
each application's output the next application's input; its backward replays
the n_times captured backward closures in reverse order, threading each
closure's result into the next, and returns the elementwise sum of the
partial input gradients produced at every replay step. -/
theorem reapply_contract {β γ : Type} [AddMonoid γ] (layer : β → β × (γ → γ))
    (n_times : ℕ) (hn : 1 ≤ n_times) (X : β) (dY : γ) :
    (reapply layer n_times X).1 = (fun v => (layer v).1)^[n_times] X ∧
    (reapply layer n_times X).2 dY
      = some ((threadParts ((reapplyLoop layer n_times X).2).reverse dY).sum) := by
  refine ⟨reapplyLoop_fst layer n_times X, ?_⟩
  have hlen : ((reapplyLoop layer n_times X).2).reverse.length = n_times := by
    simp [reapplyLoop_snd_length]
  cases hrev : ((reapplyLoop layer n_times X).2).reverse with
  | nil =>
    rw [hrev] at hlen
    simp at hlen
    omega
  | cons bp rest =>
    show reapplyBwdLoop ((reapplyLoop layer n_times X).2).reverse dY none = _
    rw [hrev]
    exact reapplyBwdLoop_from_none bp rest dY

/-- Claim C6, evaluated: for the layer x ↦ x + 1 with backward d ↦ 2 * d,
applied twice from 0 with incoming gradient 1. -/
theorem reapply_contract_witness :
    (reapply (fun x : ℚ => (x + 1, fun d : ℚ => 2 * d)) 2 (0 : ℚ)).1
        = (fun v => ((fun x : ℚ => (x + 1, fun d : ℚ => 2 * d)) v).1)^[2] (0 : ℚ) ∧
    (reapply (fun x : ℚ => (x + 1, fun d : ℚ => 2 * d)) 2 (0 : ℚ)).2 1
        = some ((threadParts
            ((reapplyLoop (fun x : ℚ => (x + 1, fun d : ℚ => 2 * d)) 2 (0 : ℚ)).2).reverse
            1).sum) :=
  reapply_contract (fun x : ℚ => (x + 1, fun d : ℚ => 2 * d)) 2 (by norm_num) 0 1

end SpacyMl
